import Mathlib

/-!
Shallow embedding of final.py: three dataset normalizers
(format_movie_reviews_for_evaluate, format_fashion_reviews_for_evaluate,
format_financial_news_for_evaluate) and the spelling-error corruptor
(inject_spelling_errors with its helpers introduce_error and
add_errors_to_text).

Texts are modelled as List Char.  Randomness is modelled by explicit
streams: each call of introduce_error consumes EditStep records (one per
edit pass: the chosen edit kind, the index draws, the replacement-letter
draw, scramble permutation entropy, and the uniform draw deciding the
compounding recursion), and each iteration of the word-selection loop of
add_errors_to_text consumes one PassRand (the chosen word index plus the
EditStep stream for that word).  Integer draws random.randint(0, n) are
modelled as an arbitrary natural taken modulo n+1, so the modelled draw
ranges over exactly the outcomes of the source.  Fatal errors of the
source (the out-of-range randint on empty word lists, the undefined loop
bound for a degree outside 1..3) are modelled by Option: none means the
source raises.
-/

/-- Python str whitespace test (the characters str.split and str.strip
treat as whitespace). -/
def isSpaceB (c : Char) : Bool :=
  c == ' ' || c == '\t' || c == '\n' || c == '\r' || c == '\x0b' || c == '\x0c'

/-- Python str.strip(): remove leading and trailing whitespace. -/
def pyStrip (s : List Char) : List Char :=
  ((s.dropWhile isSpaceB).reverse.dropWhile isSpaceB).reverse

/-- Python str.lower() (ASCII case, as used by the financial normalizer). -/
def pyLower (s : List Char) : List Char :=
  s.map Char.toLower

/-- Python str.replace(pat, rep), fuelled so that the recursion is
structural: every pass either consumes one character or replaces one
non-overlapping occurrence of pat (consuming at least one character for a
non-empty pattern such as the six-character line-break marker the source
uses), so fuel equal to the length of the scanned text never runs out. -/
def replaceAllF (fuel : Nat) (pat rep : List Char) (s : List Char) : List Char :=
  match fuel, s with
  | 0, s => s
  | _ + 1, [] => []
  | fuel + 1, c :: rest =>
    if pat ≠ [] ∧ pat.isPrefixOf (c :: rest) then
      rep ++ replaceAllF fuel pat rep ((c :: rest).drop pat.length)
    else
      c :: replaceAllF fuel pat rep rest

/-- Python str.replace(pat, rep): replace every non-overlapping occurrence
of pat, scanning left to right. -/
def replaceAll (pat rep : List Char) (s : List Char) : List Char :=
  replaceAllF s.length pat rep s

/-- Python str.split() with no argument: maximal runs of non-whitespace,
runs of whitespace are separators, no empty words. -/
def splitWords (s : List Char) : List (List Char) :=
  match s with
  | [] => []
  | c :: rest =>
    if isSpaceB c then splitWords rest
    else (c :: rest.takeWhile (fun d => !isSpaceB d)) ::
          splitWords (rest.dropWhile (fun d => !isSpaceB d))
termination_by s.length
decreasing_by
  · simp
  · have := (List.dropWhile_sublist (l := rest) (fun d => !isSpaceB d)).length_le
    simp only [List.length_cons]
    omega

/-- Python " ".join(words). -/
def joinWords : List (List Char) → List Char
  | [] => []
  | [w] => w
  | w :: ws => w ++ ' ' :: joinWords ws

/-- A word as produced by str.split(): non-empty and free of whitespace. -/
def goodWord (w : List Char) : Bool :=
  !w.isEmpty && w.all (fun c => !isSpaceB c)

/-- The alphabet random.choice draws substitution letters from in
introduce_error. -/
def lowercaseLetters : List Char := "abcdefghijklmnopqrstuvwxyz".toList

/-- The randomness one pass of introduce_error may consume: the edit-kind
draw (random.choice over the five kinds, index modulo 5 in source order
substitution, transposition, omission, duplication, scramble), the
position draw, the replacement-letter draw, the entropy for
random.sample in the scramble case, and the uniform random.random() draw
deciding the compounding recursion. -/
structure EditStep where
  errType : Nat
  idx : Nat
  repl : Nat
  perm : List Nat
  contDraw : ℚ
deriving DecidableEq

/-- random.sample(word, len(word)): selection sampling, each entropy
value picks (modulo the remaining length) the next element to emit.
When the entropy list runs out the remaining elements are emitted in
order, so the result is always a rearrangement of the input. -/
def drawPerm (ns : List Nat) (w : List Char) : List Char :=
  match w, ns with
  | [], _ => []
  | c :: cs, [] => c :: cs
  | c :: cs, n :: ns =>
    (c :: cs).getD (n % (c :: cs).length) 'a' ::
      drawPerm ns ((c :: cs).eraseIdx (n % (c :: cs).length))
termination_by w.length
decreasing_by
  have hi : n % (cs.length + 1) < cs.length + 1 := Nat.mod_lt _ (by omega)
  simp only [List.length_eraseIdx, List.length_cons, hi, if_pos]
  omega

/-- One edit attempt of introduce_error (the if/elif chain on the drawn
error_type), for a word of length at least 2.  Index draws
random.randint(0, len-1) and random.randint(0, len-2) are the idx field
of the step modulo len and len-1; the substitution letter is drawn from
lowercaseLetters. -/
def applyEdit (w : List Char) (severity : Nat) (s : EditStep) : List Char :=
  match s.errType % 5 with
  | 0 =>
    w.take (s.idx % w.length) ++ [lowercaseLetters.getD (s.repl % 26) 'a'] ++
      w.drop (s.idx % w.length + 1)
  | 1 =>
    if w.length > 2 then
      w.take (s.idx % (w.length - 1)) ++
        [w.getD (s.idx % (w.length - 1) + 1) 'a', w.getD (s.idx % (w.length - 1)) 'a'] ++
        w.drop (s.idx % (w.length - 1) + 2)
    else w
  | 2 =>
    w.take (s.idx % w.length) ++ w.drop (s.idx % w.length + 1)
  | 3 =>
    w.take (s.idx % w.length) ++
      [w.getD (s.idx % w.length) 'a', w.getD (s.idx % w.length) 'a'] ++
      w.drop (s.idx % w.length + 1)
  | _ =>
    if severity = 3 then drawPerm s.perm w else w

/-- introduce_error(word, severity): words shorter than 2 characters are
returned unchanged before any randomness is consumed; otherwise one edit
attempt is applied and, when the fresh uniform draw is below 0.5 at
severity 3 or below 0.2 at severity 2, another pass is applied
recursively to the modified word. -/
def introduce_error (w : List Char) (severity : Nat) (steps : List EditStep) : List Char :=
  if w.length < 2 then w
  else
    match steps with
    | [] => w
    | s :: rest =>
      if (severity = 3 ∧ s.contDraw < (1 : ℚ) / 2) ∨
         (severity = 2 ∧ s.contDraw < (1 : ℚ) / 5) then
        introduce_error (applyEdit w severity s) severity rest
      else applyEdit w severity s

/-- The randomness one iteration of the word-selection loop of
add_errors_to_text consumes: the word-position draw
random.randint(0, len(words)-1) (pick modulo the word count) and the
EditStep stream for the introduce_error call on that word. -/
structure PassRand where
  pick : Nat
  steps : List EditStep
deriving DecidableEq

/-- The word-selection loop of add_errors_to_text: num times, pick a word
position uniformly with replacement and overwrite that word with
introduce_error of it.  If the supplied randomness runs out the loop
stops early (the source never exhausts its global stream). -/
def corruptLoop (degree : Nat) : List (List Char) → Nat → List PassRand → List (List Char)
  | words, 0, _ => words
  | words, _ + 1, [] => words
  | words, n + 1, r :: rs =>
    corruptLoop degree
      (words.set (r.pick % words.length)
        (introduce_error (words.getD (r.pick % words.length) []) degree r.steps)) n rs

/-- add_errors_to_text(text, degree): split into words, compute the
severity-dependent target count, run the word-selection loop, rejoin
with single spaces.  none models the source raising: the NameError when
degree is outside 1..3 and the ValueError of randint(0, -1) when the
text has no words. -/
def add_errors_to_text (text : List Char) (degree : Nat) (rnd : List PassRand) :
    Option (List Char) :=
  let words := splitWords text
  if degree = 1 ∨ degree = 2 ∨ degree = 3 then
    let num :=
      if degree = 1 then max 1 (words.length / 50)
      else if degree = 2 then max 1 (words.length / 10)
      else max 1 (words.length / 5)
    if words.isEmpty then none
    else some (joinWords (corruptLoop degree words num rnd))
  else none

/-- A canonical record: the rows {id, text, sentiment} the normalizers
emit and inject_spelling_errors transforms. -/
structure Record where
  id : Nat
  text : List Char
  sentiment : List Char
deriving DecidableEq

/-- The per-record traversal of inject_spelling_errors (the .apply over
the text column); the randomness for record number i is rnd i.  A raise
in any record (none) aborts the whole call. -/
def injectGo (degree : Nat) (rnd : Nat → List PassRand) :
    List Record → Nat → Option (List Record)
  | [], _ => some []
  | r :: rest, i =>
    match add_errors_to_text r.text degree (rnd i) with
    | none => none
    | some t =>
      match injectGo degree rnd rest (i + 1) with
      | none => none
      | some rs => some ({ r with text := t } :: rs)

/-- inject_spelling_errors(formatted_df, degree): copy the record set and
replace each text by add_errors_to_text of it. -/
def inject_spelling_errors (rs : List Record) (degree : Nat) (rnd : Nat → List PassRand) :
    Option (List Record) :=
  injectGo degree rnd rs 0

/-- One row of the movie-review CSV: the review and sentiment columns. -/
structure MovieRow where
  review : List Char
  sentiment : List Char
deriving DecidableEq

/-- The line-break marker stripped by the movie normalizer. -/
def brTag : List Char := "<br />".toList

/-- format_movie_reviews_for_evaluate: for each row in order, id is the
positional index, text is the review with the line-break marker replaced
by a space then stripped, and sentiment is carried verbatim.  No row is
dropped. -/
def format_movie_reviews_for_evaluate (rows : List MovieRow) : List Record :=
  rows.enum.map fun p =>
    { id := p.1, text := pyStrip (replaceAll brTag [' '] p.2.review),
      sentiment := p.2.sentiment }

/-- One line of the fashion-review JSON file: the two fields the code
reads, each possibly absent. -/
structure FashionLine where
  reviewText : Option (List Char)
  overall : Option ℚ
deriving DecidableEq

/-- The rating-to-sentiment mapping of format_fashion_reviews_for_evaluate:
1 and 2 are negative, 3 neutral, 4 and 5 positive, anything else
(a missing rating included) yields none and the line is skipped. -/
def sentimentOfOverall : Option ℚ → Option (List Char)
  | none => none
  | some q =>
    if q = 1 ∨ q = 2 then some "negative".toList
    else if q = 3 then some "neutral".toList
    else if q = 4 ∨ q = 5 then some "positive".toList
    else none

/-- The enumerated traversal of format_fashion_reviews_for_evaluate:
idx is the 0-based line index over all input lines.  A line with a
missing or empty reviewText, or with a rating outside the mapped set, is
skipped; an emitted record has id = idx, the stripped review text, and
the mapped sentiment. -/
def fashionGo : List FashionLine → Nat → List Record
  | [], _ => []
  | l :: rest, idx =>
    match l.reviewText with
    | none => fashionGo rest (idx + 1)
    | some rt =>
      if rt = [] then fashionGo rest (idx + 1)
      else
        match sentimentOfOverall l.overall with
        | none => fashionGo rest (idx + 1)
        | some sent =>
          { id := idx, text := pyStrip rt, sentiment := sent } :: fashionGo rest (idx + 1)

/-- format_fashion_reviews_for_evaluate over the parsed lines. -/
def format_fashion_reviews_for_evaluate (lines : List FashionLine) : List Record :=
  fashionGo lines 0

/-- One row of the headerless financial-news CSV: the two columns in
fixed order. -/
structure FinRow where
  sentiment : List Char
  text : List Char
deriving DecidableEq

/-- The enumerated traversal of format_financial_news_for_evaluate: the
sentiment column is stripped then lower-cased, the text column stripped;
a row where either is empty after that is skipped, otherwise the record
id = row index, text, sentiment is emitted. -/
def finGo : List FinRow → Nat → List Record
  | [], _ => []
  | r :: rest, idx =>
    let sentiment := pyLower (pyStrip r.sentiment)
    let text := pyStrip r.text
    if sentiment = [] ∨ text = [] then finGo rest (idx + 1)
    else { id := idx, text := text, sentiment := sentiment } :: finGo rest (idx + 1)

/-- format_financial_news_for_evaluate over the parsed rows. -/
def format_financial_news_for_evaluate (rows : List FinRow) : List Record :=
  finGo rows 0

/-- The nine-word scenario text of the light-severity test case. -/
def foxText : List Char := "the quick brown fox jumps over the lazy dog".toList

/-- Number of positions at which two word lists differ (counting length
mismatch positions); used to state how many words corruption changed. -/
def diffCount : List (List Char) → List (List Char) → Nat
  | [], [] => 0
  | [], _ :: vs => 1 + diffCount [] vs
  | _ :: ws, [] => 1 + diffCount ws []
  | w :: ws, v :: vs => (if w = v then 0 else 1) + diffCount ws vs

/-- The rational number 7/2, written as an explicit fraction: the
out-of-vocabulary rating 3.5 of the fashion-normalizer test case. -/
def threeAndAHalf : ℚ := ⟨7, 2, by decide, by decide⟩

theorem takeWhile_append_stop {p : Char → Bool} (xs : List Char) (y : Char) (zs : List Char)
    (hxs : ∀ c ∈ xs, p c = true) (hy : p y = false) :
    (xs ++ y :: zs).takeWhile p = xs := by
  induction xs with
  | nil => simp [List.takeWhile_cons, hy]
  | cons a xs ih =>
    have ha : p a = true := hxs a (by simp)
    simp only [List.cons_append, List.takeWhile_cons, ha, if_true]
    rw [ih (fun c hc => hxs c (by simp [hc]))]

theorem dropWhile_append_stop {p : Char → Bool} (xs : List Char) (y : Char) (zs : List Char)
    (hxs : ∀ c ∈ xs, p c = true) (hy : p y = false) :
    (xs ++ y :: zs).dropWhile p = y :: zs := by
  induction xs with
  | nil => simp [List.dropWhile_cons, hy]
  | cons a xs ih =>
    have ha : p a = true := hxs a (by simp)
    simp only [List.cons_append, List.dropWhile_cons, ha, if_true]
    exact ih (fun c hc => hxs c (by simp [hc]))

theorem splitWords_good (s : List Char) : ∀ w ∈ splitWords s, goodWord w = true := by
  induction s using splitWords.induct with
  | case1 => simp [splitWords]
  | case2 c rest h ih =>
    rw [splitWords]
    simp only [h, if_true]
    exact ih
  | case3 c rest h ih =>
    rw [splitWords]
    simp only [h, Bool.false_eq_true, if_false]
    intro w hw
    rcases List.mem_cons.mp hw with hw | hw
    · subst hw
      simp only [goodWord, Bool.and_eq_true, List.isEmpty_cons, Bool.not_false,
        List.all_eq_true, List.mem_cons, true_and]
      intro x hx
      rcases hx with hx | hx
      · subst hx; simp [h]
      · simpa using List.mem_takeWhile_imp hx
    · exact ih w hw

theorem goodWord_cons {c : Char} {w : List Char} (h : goodWord (c :: w) = true) :
    isSpaceB c = false ∧ ∀ d ∈ w, isSpaceB d = false := by
  simp only [goodWord, Bool.and_eq_true, List.isEmpty_cons, Bool.not_false,
    List.all_cons, List.all_eq_true, Bool.not_eq_true'] at h
  exact ⟨h.2.1, h.2.2⟩

theorem splitWords_joinWords (ws : List (List Char)) (hws : ∀ w ∈ ws, goodWord w = true) :
    splitWords (joinWords ws) = ws := by
  induction ws with
  | nil => rw [joinWords, splitWords]
  | cons w ws ih =>
    obtain ⟨c, w', rfl⟩ : ∃ c w', w = c :: w' := by
      have hg := hws w (by simp)
      cases w with
      | nil => simp [goodWord] at hg
      | cons c w' => exact ⟨c, w', rfl⟩
    obtain ⟨hc, hw'⟩ := goodWord_cons (hws (c :: w') (List.mem_cons_self _ _))
    cases ws with
    | nil =>
      rw [joinWords, splitWords]
      simp only [hc, Bool.false_eq_true, if_false]
      rw [List.takeWhile_eq_self_iff.mpr (by intro x hx; simp [hw' x hx]),
        List.dropWhile_eq_nil_iff.mpr (by intro x hx; simp [hw' x hx]), splitWords]
    | cons v vs =>
      show splitWords (c :: (w' ++ ' ' :: joinWords (v :: vs))) = _
      rw [splitWords]
      simp only [hc, Bool.false_eq_true, if_false]
      rw [takeWhile_append_stop w' ' ' _ (by intro x hx; simp [hw' x hx]) (by simp [isSpaceB]),
        dropWhile_append_stop w' ' ' _ (by intro x hx; simp [hw' x hx]) (by simp [isSpaceB])]
      rw [splitWords]
      simp only [show isSpaceB ' ' = true from rfl, if_true]
      rw [ih (fun u hu => hws u (by simp [hu]))]

theorem getD_mem_of_lt {α : Type} {l : List α} {n : Nat} {d : α} (h : n < l.length) :
    l.getD n d ∈ l := by
  simp only [List.getD_eq_getElem?_getD, List.getElem?_eq_getElem h, Option.getD_some]
  exact List.getElem_mem h

theorem getD_eq_getElem_of_lt {α : Type} {l : List α} {n : Nat} (d : α)
    (h : n < l.length) : l.getD n d = l[n] := by
  simp only [List.getD_eq_getElem?_getD, List.getElem?_eq_getElem h, Option.getD_some]

theorem goodWord_eq_true_iff (w : List Char) :
    goodWord w = true ↔ w ≠ [] ∧ ∀ c ∈ w, isSpaceB c = false := by
  simp [goodWord, Bool.not_eq_true', List.isEmpty_iff]

theorem lowercase_not_space (n : Nat) : isSpaceB (lowercaseLetters.getD n 'a') = false := by
  by_cases h : n < lowercaseLetters.length
  · have hall : ∀ c ∈ lowercaseLetters, isSpaceB c = false := by decide
    exact hall _ (getD_mem_of_lt h)
  · rw [List.getD_eq_getElem?_getD, List.getElem?_eq_none (by omega)]
    decide

theorem drawPerm_length (ns : List Nat) (w : List Char) :
    (drawPerm ns w).length = w.length := by
  induction ns, w using drawPerm.induct with
  | case1 => rw [drawPerm]
  | case2 c cs => rw [drawPerm]
  | case3 c cs n ns ih =>
    rw [drawPerm]
    simp only [List.length_cons] at ih ⊢
    rw [ih, List.length_eraseIdx]
    simp only [List.length_cons]
    have hi : n % (cs.length + 1) < cs.length + 1 := Nat.mod_lt _ (by omega)
    rw [if_pos hi]
    omega

theorem drawPerm_mem (ns : List Nat) (w : List Char) :
    ∀ c ∈ drawPerm ns w, c ∈ w := by
  induction ns, w using drawPerm.induct with
  | case1 => intro c hc; rw [drawPerm] at hc; exact hc
  | case2 c cs => intro x hx; rw [drawPerm] at hx; exact hx
  | case3 c cs n ns ih =>
    intro x hx
    rw [drawPerm] at hx
    rcases List.mem_cons.mp hx with hx | hx
    · subst hx
      exact getD_mem_of_lt (Nat.mod_lt _ (by simp))
    · exact List.eraseIdx_subset _ _ (ih x hx)

theorem applyEdit_good {w : List Char} (severity : Nat) (s : EditStep)
    (h2 : 2 ≤ w.length) (hg : goodWord w = true) :
    goodWord (applyEdit w severity s) = true := by
  obtain ⟨hne, hmem⟩ := (goodWord_eq_true_iff w).mp hg
  have hlpos : 0 < w.length := by omega
  rw [applyEdit]
  split
  · -- substitution
    rw [goodWord_eq_true_iff]
    refine ⟨by simp, ?_⟩
    intro c hc
    simp only [List.append_assoc, List.mem_append, List.mem_cons, List.not_mem_nil,
      or_false] at hc
    rcases hc with hc | hc | hc
    · exact hmem c (List.take_subset _ _ hc)
    · subst hc; exact lowercase_not_space _
    · exact hmem c (List.drop_subset _ _ hc)
  · -- transposition
    split
    · rw [goodWord_eq_true_iff]
      rename_i hlen3
      have hi : s.idx % (w.length - 1) < w.length - 1 := Nat.mod_lt _ (by omega)
      refine ⟨by simp, ?_⟩
      intro c hc
      rcases List.mem_append.mp hc with hc | hc
      · rcases List.mem_append.mp hc with hc | hc
        · exact hmem c (List.take_subset _ _ hc)
        · have hcc : c = w.getD (s.idx % (w.length - 1) + 1) 'a' ∨
              c = w.getD (s.idx % (w.length - 1)) 'a' := by simpa using hc
          rcases hcc with rfl | rfl
          · exact hmem _ (getD_mem_of_lt (by omega))
          · exact hmem _ (getD_mem_of_lt (by omega))
      · exact hmem c (List.drop_subset _ _ hc)
    · exact hg
  · -- omission
    rw [goodWord_eq_true_iff]
    have hi : s.idx % w.length < w.length := Nat.mod_lt _ hlpos
    constructor
    · intro hnil
      have := congrArg List.length hnil
      simp only [List.length_append, List.length_take, List.length_drop,
        List.length_nil] at this
      omega
    · intro c hc
      rcases List.mem_append.mp hc with hc | hc
      · exact hmem c (List.take_subset _ _ hc)
      · exact hmem c (List.drop_subset _ _ hc)
  · -- duplication
    rw [goodWord_eq_true_iff]
    have hi : s.idx % w.length < w.length := Nat.mod_lt _ hlpos
    refine ⟨by simp, ?_⟩
    intro c hc
    rcases List.mem_append.mp hc with hc | hc
    · rcases List.mem_append.mp hc with hc | hc
      · exact hmem c (List.take_subset _ _ hc)
      · have hcc : c = w.getD (s.idx % w.length) 'a' ∨
            c = w.getD (s.idx % w.length) 'a' := by simpa using hc
        rcases hcc with rfl | rfl
        · exact hmem _ (getD_mem_of_lt hi)
        · exact hmem _ (getD_mem_of_lt hi)
    · exact hmem c (List.drop_subset _ _ hc)
  · -- scramble
    split
    · rw [goodWord_eq_true_iff]
      constructor
      · intro hnil
        have hlen := congrArg List.length hnil
        rw [drawPerm_length] at hlen
        simp only [List.length_nil] at hlen
        omega
      · intro c hc
        exact hmem c (drawPerm_mem _ _ c hc)
    · exact hg

theorem introduce_error_good (steps : List EditStep) : ∀ (w : List Char) (severity : Nat),
    goodWord w = true → goodWord (introduce_error w severity steps) = true := by
  induction steps with
  | nil =>
    intro w severity hg
    rw [introduce_error]
    split
    · exact hg
    · exact hg
  | cons s rest ih =>
    intro w severity hg
    rw [introduce_error]
    by_cases hw : w.length < 2
    · rw [if_pos hw]; exact hg
    · rw [if_neg hw]
      have hgood2 := applyEdit_good severity s (by omega) hg
      split
      · exact ih _ _ hgood2
      · exact hgood2

theorem corruptLoop_length (degree : Nat) (n : Nat) :
    ∀ (words : List (List Char)) (rs : List PassRand),
      (corruptLoop degree words n rs).length = words.length := by
  induction n with
  | zero => intro words rs; rw [corruptLoop]
  | succ n ih =>
    intro words rs
    cases rs with
    | nil => rw [corruptLoop]
    | cons r rs =>
      rw [corruptLoop, ih]
      simp

theorem corruptLoop_good (degree : Nat) (n : Nat) :
    ∀ (words : List (List Char)) (rs : List PassRand), words ≠ [] →
      (∀ w ∈ words, goodWord w = true) →
      ∀ w ∈ corruptLoop degree words n rs, goodWord w = true := by
  induction n with
  | zero => intro words rs _ h; rw [corruptLoop]; exact h
  | succ n ih =>
    intro words rs hne h
    cases rs with
    | nil => rw [corruptLoop]; exact h
    | cons r rs =>
      rw [corruptLoop]
      have hlpos : 0 < words.length := List.length_pos.mpr hne
      have hi : r.pick % words.length < words.length := Nat.mod_lt _ hlpos
      apply ih
      · intro hnil
        have hlen := congrArg List.length hnil
        rw [List.length_set] at hlen
        simp only [List.length_nil] at hlen
        omega
      · intro w hw
        rcases List.mem_or_eq_of_mem_set hw with hw | hw
        · exact h w hw
        · subst hw
          apply introduce_error_good
          exact h _ (getD_mem_of_lt hi)

theorem add_errors_to_text_spec (text : List Char) (degree : Nat)
    (rnd : List PassRand) (out : List Char)
    (h : add_errors_to_text text degree rnd = some out) :
    splitWords out =
      corruptLoop degree (splitWords text)
        (if degree = 1 then max 1 ((splitWords text).length / 50)
         else if degree = 2 then max 1 ((splitWords text).length / 10)
         else max 1 ((splitWords text).length / 5)) rnd ∧
    (splitWords out).length = (splitWords text).length := by
  rw [add_errors_to_text] at h
  by_cases hdeg : degree = 1 ∨ degree = 2 ∨ degree = 3
  · rw [if_pos hdeg] at h
    by_cases hempty : (splitWords text).isEmpty
    · rw [if_pos hempty] at h
      exact absurd h (by simp)
    · rw [if_neg hempty] at h
      have hne : splitWords text ≠ [] := by
        intro hx; rw [hx] at hempty; exact hempty rfl
      have hout : out = joinWords (corruptLoop degree (splitWords text)
          (if degree = 1 then max 1 ((splitWords text).length / 50)
           else if degree = 2 then max 1 ((splitWords text).length / 10)
           else max 1 ((splitWords text).length / 5)) rnd) := by
        exact (Option.some.injEq _ _ ▸ h).symm
      have hgood : ∀ w ∈ corruptLoop degree (splitWords text)
          (if degree = 1 then max 1 ((splitWords text).length / 50)
           else if degree = 2 then max 1 ((splitWords text).length / 10)
           else max 1 ((splitWords text).length / 5)) rnd, goodWord w = true :=
        corruptLoop_good _ _ _ _ hne (splitWords_good text)
      constructor
      · rw [hout, splitWords_joinWords _ hgood]
      · rw [hout, splitWords_joinWords _ hgood, corruptLoop_length]
  · rw [if_neg hdeg] at h
    exact absurd h (by simp)

theorem injectGo_parts (degree : Nat) (rnd : Nat → List PassRand) :
    ∀ (rs : List Record) (k : Nat) (out : List Record),
      injectGo degree rnd rs k = some out →
      out.length = rs.length ∧
      out.map Record.id = rs.map Record.id ∧
      out.map Record.sentiment = rs.map Record.sentiment ∧
      out.map (fun r => (splitWords r.text).length) =
        rs.map (fun r => (splitWords r.text).length) := by
  intro rs
  induction rs with
  | nil =>
    intro k out h
    rw [injectGo] at h
    have : out = [] := by simpa using h.symm
    subst this
    simp
  | cons r rest ih =>
    intro k out h
    rw [injectGo] at h
    cases hadd : add_errors_to_text r.text degree (rnd k) with
    | none => rw [hadd] at h; exact absurd h (by simp)
    | some t =>
      rw [hadd] at h
      cases hrec : injectGo degree rnd rest (k + 1) with
      | none => rw [hrec] at h; exact absurd h (by simp)
      | some rs2 =>
        rw [hrec] at h
        have hout : out = { r with text := t } :: rs2 := by simpa using h.symm
        subst hout
        obtain ⟨h1, h2, h3, h4⟩ := ih (k + 1) rs2 hrec
        have hwc := (add_errors_to_text_spec r.text degree (rnd k) t hadd).2
        simp [h1, h2, h3, h4, hwc]

/-- C1: for every record set and severity on which inject_spelling_errors
returns (it raises on empty texts, see the empty-text claim), the output
has exactly as many records as the input and the id and sentiment
columns are unchanged record by record; only text may differ. -/
theorem inject_spelling_errors_frame (rs : List Record) (degree : Nat)
    (rnd : Nat → List PassRand) (out : List Record)
    (h : inject_spelling_errors rs degree rnd = some out) :
    out.length = rs.length ∧
    out.map Record.id = rs.map Record.id ∧
    out.map Record.sentiment = rs.map Record.sentiment := by
  obtain ⟨h1, h2, h3, _⟩ := injectGo_parts degree rnd rs 0 out h
  exact ⟨h1, h2, h3⟩

/-- Witness for C1: a concrete one-record set at light severity, with the
hypothesis discharged by evaluation. -/
theorem inject_spelling_errors_frame_witness :
    ([⟨0, "ai there".toList, "positive".toList⟩] : List Record).length =
      ([⟨0, "hi there".toList, "positive".toList⟩] : List Record).length ∧
    ([⟨0, "ai there".toList, "positive".toList⟩] : List Record).map Record.id =
      ([⟨0, "hi there".toList, "positive".toList⟩] : List Record).map Record.id ∧
    ([⟨0, "ai there".toList, "positive".toList⟩] : List Record).map Record.sentiment =
      ([⟨0, "hi there".toList, "positive".toList⟩] : List Record).map Record.sentiment :=
  inject_spelling_errors_frame [⟨0, "hi there".toList, "positive".toList⟩] 1
    (fun _ => [⟨0, [⟨0, 0, 0, [], 1⟩]⟩]) [⟨0, "ai there".toList, "positive".toList⟩]
    (by simp [inject_spelling_errors, injectGo, add_errors_to_text, splitWords, isSpaceB,
      corruptLoop, introduce_error, applyEdit, joinWords, lowercaseLetters])

/-- C3: for every severity level and random stream, introduce_error
returns any word of length < 2 (one-character or empty) completely
unchanged. -/
theorem introduce_error_short_word (w : List Char) (severity : Nat)
    (steps : List EditStep) (h : w.length < 2) :
    introduce_error w severity steps = w := by
  rw [introduce_error.eq_def, if_pos h]

/-- Witness for C3: the one-character word is untouched at severity 3. -/
theorem introduce_error_short_word_witness :
    ("a".toList).length < 2 ∧
    introduce_error "a".toList 3 [⟨0, 0, 0, [], 0⟩] = "a".toList :=
  ⟨by decide, introduce_error_short_word "a".toList 3 [⟨0, 0, 0, [], 0⟩] (by decide)⟩

/-- C4: when the drawn edit kind is scramble (index 4), the edit applies
the random permutation only at severity 3; at any other severity the
pass is a silent no-op on the word (no re-roll of the edit kind), and in
particular a single severity-1 pass returns the word unchanged. -/
theorem scramble_only_at_severe (w : List Char) (severity : Nat) (s : EditStep)
    (h : s.errType % 5 = 4) :
    (severity ≠ 3 → applyEdit w severity s = w) ∧
    applyEdit w 3 s = drawPerm s.perm w ∧
    introduce_error w 1 [s] = w := by
  have happ : ∀ sev : Nat, sev ≠ 3 → applyEdit w sev s = w := by
    intro sev hsev
    rw [applyEdit, h]
    simp [hsev]
  refine ⟨happ severity, ?_, ?_⟩
  · rw [applyEdit, h]
    simp
  · rw [introduce_error]
    by_cases hw : w.length < 2
    · rw [if_pos hw]
    · rw [if_neg hw]
      simp [happ 1 (by decide)]

/-- Witness for C4: a concrete scramble step at severity 2. -/
theorem scramble_only_at_severe_witness :
    ((⟨4, 0, 0, [1, 0], 0⟩ : EditStep).errType % 5 = 4) ∧
    (((2 : Nat) ≠ 3 → applyEdit "ab".toList 2 ⟨4, 0, 0, [1, 0], 0⟩ = "ab".toList) ∧
     applyEdit "ab".toList 3 ⟨4, 0, 0, [1, 0], 0⟩ =
       drawPerm (⟨4, 0, 0, [1, 0], 0⟩ : EditStep).perm "ab".toList ∧
     introduce_error "ab".toList 1 [⟨4, 0, 0, [1, 0], 0⟩] = "ab".toList) :=
  ⟨by decide, scramble_only_at_severe "ab".toList 2 ⟨4, 0, 0, [1, 0], 0⟩ (by decide)⟩

/-- C5: after the edit attempt on a word of length at least 2, the
recursive compounding pass happens exactly when the fresh uniform draw
is below 0.5 at severity 3 or below 0.2 at severity 2, and at severity 1
no compounding pass is ever applied. -/
theorem introduce_error_compounding (w : List Char) (severity : Nat)
    (s : EditStep) (rest : List EditStep) (h : 2 ≤ w.length) :
    (introduce_error w severity (s :: rest) =
      if (severity = 3 ∧ s.contDraw < (1 : ℚ) / 2) ∨
         (severity = 2 ∧ s.contDraw < (1 : ℚ) / 5) then
        introduce_error (applyEdit w severity s) severity rest
      else applyEdit w severity s) ∧
    introduce_error w 1 (s :: rest) = applyEdit w 1 s := by
  constructor
  · rw [introduce_error, if_neg (by omega)]
  · rw [introduce_error, if_neg (by omega)]
    simp

/-- Witness for C5: a two-character word with a severity-3 step whose
uniform draw 0 is below the 0.5 threshold. -/
theorem introduce_error_compounding_witness :
    2 ≤ ("ab".toList).length ∧
    ((introduce_error "ab".toList 3 [⟨2, 0, 0, [], 0⟩] =
      if ((3 : Nat) = 3 ∧ ((0 : ℚ) : ℚ) < (1 : ℚ) / 2) ∨
         ((3 : Nat) = 2 ∧ ((0 : ℚ) : ℚ) < (1 : ℚ) / 5) then
        introduce_error (applyEdit "ab".toList 3 ⟨2, 0, 0, [], 0⟩) 3 []
      else applyEdit "ab".toList 3 ⟨2, 0, 0, [], 0⟩) ∧
    introduce_error "ab".toList 1 [⟨2, 0, 0, [], 0⟩] =
      applyEdit "ab".toList 1 ⟨2, 0, 0, [], 0⟩) :=
  ⟨by decide, by
    have := introduce_error_compounding "ab".toList 3 ⟨2, 0, 0, [], 0⟩ [] (by decide)
    have h1 := introduce_error_compounding "ab".toList 1 ⟨2, 0, 0, [], 0⟩ [] (by decide)
    exact ⟨this.1, h1.2⟩⟩

theorem add_errors_to_text_none (text : List Char) (degree : Nat)
    (rnd : List PassRand) (h : splitWords text = []) :
    add_errors_to_text text degree rnd = none := by
  simp [add_errors_to_text, h]

theorem injectGo_none (degree : Nat) (rnd : Nat → List PassRand) (r : Record)
    (h : splitWords r.text = []) :
    ∀ (rs : List Record) (k : Nat), r ∈ rs → injectGo degree rnd rs k = none := by
  intro rs
  induction rs with
  | nil => intro k hk; simp at hk
  | cons a rest ih =>
    intro k hk
    rw [injectGo]
    rcases List.mem_cons.mp hk with rfl | hk
    · rw [add_errors_to_text_none r.text degree (rnd k) h]
    · cases hadd : add_errors_to_text a.text degree (rnd k) with
      | none => rfl
      | some t =>
        rw [ih (k + 1) hk]

/-- C8: if any record of the input has a text with zero words (empty or
whitespace-only), inject_spelling_errors fails (none models the
out-of-range randint raising) instead of returning a record set, at
every severity. -/
theorem inject_spelling_errors_empty_text (rs : List Record) (degree : Nat)
    (rnd : Nat → List PassRand) (r : Record) (hr : r ∈ rs)
    (h : splitWords r.text = []) :
    inject_spelling_errors rs degree rnd = none := by
  rw [inject_spelling_errors]
  exact injectGo_none degree rnd r h rs 0 hr

/-- Witness for C8: a single whitespace-only record at severity 2. -/
theorem inject_spelling_errors_empty_text_witness :
    (⟨0, "  ".toList, "positive".toList⟩ : Record) ∈
      [(⟨0, "  ".toList, "positive".toList⟩ : Record)] ∧
    splitWords ("  ".toList) = [] ∧
    inject_spelling_errors [⟨0, "  ".toList, "positive".toList⟩] 2 (fun _ => []) = none :=
  ⟨by decide, by simp [splitWords, isSpaceB],
   inject_spelling_errors_empty_text _ 2 _ ⟨0, "  ".toList, "positive".toList⟩
     (by decide) (by simp [splitWords, isSpaceB])⟩

/-- C10: whenever inject_spelling_errors returns, every output text
splits into exactly as many whitespace-separated words as the
corresponding input text: no edit inserts whitespace (substitution draws
only lowercase letters) and no edit empties a word. -/
theorem inject_spelling_errors_word_count (rs : List Record) (degree : Nat)
    (rnd : Nat → List PassRand) (out : List Record)
    (h : inject_spelling_errors rs degree rnd = some out) :
    out.map (fun r => (splitWords r.text).length) =
      rs.map (fun r => (splitWords r.text).length) :=
  (injectGo_parts degree rnd rs 0 out h).2.2.2

/-- Witness for C10: a two-word record corrupted at severity 3 with a
compounding omission pass keeps its word count. -/
theorem inject_spelling_errors_word_count_witness :
    ([⟨0, "i there".toList, "positive".toList⟩] : List Record).map
        (fun r => (splitWords r.text).length) =
      ([⟨0, "hi there".toList, "positive".toList⟩] : List Record).map
        (fun r => (splitWords r.text).length) :=
  inject_spelling_errors_word_count [⟨0, "hi there".toList, "positive".toList⟩] 3
    (fun _ => [⟨0, [⟨2, 0, 0, [], 1⟩]⟩]) [⟨0, "i there".toList, "positive".toList⟩]
    (by simp [inject_spelling_errors, injectGo, add_errors_to_text, splitWords, isSpaceB,
      corruptLoop, introduce_error, applyEdit, joinWords])

theorem diffCount_self : ∀ ws : List (List Char), diffCount ws ws = 0
  | [] => by rw [diffCount]
  | w :: ws => by
    rw [diffCount]
    simp [diffCount_self ws]

theorem diffCount_set_le_one :
    ∀ (ws : List (List Char)) (i : Nat) (v : List Char),
      diffCount ws (ws.set i v) ≤ 1
  | [], _, _ => by
    show diffCount [] [] ≤ 1
    rw [diffCount]
    omega
  | w :: ws, 0, v => by
    show diffCount (w :: ws) (v :: ws) ≤ 1
    rw [diffCount]
    simp [diffCount_self]
    split <;> omega
  | w :: ws, i + 1, v => by
    show diffCount (w :: ws) (w :: ws.set i v) ≤ 1
    rw [diffCount]
    simpa using diffCount_set_le_one ws i v

theorem goodWords_set (words : List (List Char)) (hne : words ≠ [])
    (hgood : ∀ w ∈ words, goodWord w = true) (p : Nat) (steps : List EditStep)
    (degree : Nat) :
    ∀ w ∈ words.set (p % words.length)
        (introduce_error (words.getD (p % words.length) []) degree steps),
      goodWord w = true := by
  have hi : p % words.length < words.length := Nat.mod_lt _ (List.length_pos.mpr hne)
  intro w hw
  rcases List.mem_or_eq_of_mem_set hw with hw | hw
  · exact hgood w hw
  · subst hw
    exact introduce_error_good _ _ _ (hgood _ (getD_mem_of_lt hi))

/-- C6 (amended): on the nine-word scenario text at light severity, the
target count is max(1, 9 / 50) = 1, so for every outcome of the random
choices the call returns, the word count stays 9, and at most one word
position differs from the original (zero when the single edit attempt is
a no-op). -/
theorem light_fox_at_most_one_word (rnd : List PassRand) :
    ∃ out, add_errors_to_text foxText 1 rnd = some out ∧
      (splitWords out).length = 9 ∧
      diffCount (splitWords foxText) (splitWords out) ≤ 1 := by
  have h9 : (splitWords foxText).length = 9 := by
    simp [foxText, splitWords, isSpaceB]
  have hne : splitWords foxText ≠ [] := by
    intro hx
    rw [hx] at h9
    simp at h9
  have hgood := splitWords_good foxText
  have hie : (splitWords foxText).isEmpty = false := by
    cases hsw : splitWords foxText with
    | nil => exact absurd hsw hne
    | cons a l => rfl
  rw [add_errors_to_text]
  simp only [hie, h9]
  norm_num
  cases rnd with
  | nil =>
    rw [corruptLoop]
    refine ⟨?_, ?_⟩
    · rw [splitWords_joinWords _ hgood, h9]
    · rw [splitWords_joinWords _ hgood, diffCount_self]
      omega
  | cons r rs =>
    rw [corruptLoop, corruptLoop]
    have hg2 := goodWords_set (splitWords foxText) hne hgood r.pick r.steps 1
    refine ⟨?_, ?_⟩
    · rw [splitWords_joinWords _ hg2, List.length_set, h9]
    · rw [splitWords_joinWords _ hg2]
      exact diffCount_set_le_one _ _ _

/-- Counterexample to C6 as stated: at light severity the single edit
attempt can be a no-op (here the drawn edit kind is scramble, which does
nothing below severity 3), so an outcome exists in which zero words of
the nine-word text are modified, not exactly one. -/
theorem light_fox_cex :
    add_errors_to_text foxText 1 [⟨4, [⟨4, 0, 0, [], 1⟩]⟩] = some foxText ∧
    diffCount (splitWords foxText) (splitWords foxText) = 0 := by
  constructor
  · simp [add_errors_to_text, foxText, splitWords, isSpaceB, corruptLoop,
      introduce_error, applyEdit, joinWords]
  · rw [diffCount_self]

/-- Counterexample to C7 as stated: on the given two rows the code yields
"Great movie! Loved it" with a single space where the line-break marker
stood, not the claimed "Great movie!  Loved it" with two spaces. -/
theorem movie_scenario_cex :
    format_movie_reviews_for_evaluate
      [⟨"Great movie!<br />Loved it".toList, "positive".toList⟩,
       ⟨"Bad.".toList, "negative".toList⟩] ≠
    [⟨0, "Great movie!  Loved it".toList, "positive".toList⟩,
     ⟨1, "Bad.".toList, "negative".toList⟩] := by decide

/-- C7 (amended): on the two-row table the normalizer returns exactly the
records {id 0, "Great movie! Loved it", positive} and
{id 1, "Bad.", negative}: the line-break marker is replaced with one
space, not removed. -/
theorem movie_scenario :
    format_movie_reviews_for_evaluate
      [⟨"Great movie!<br />Loved it".toList, "positive".toList⟩,
       ⟨"Bad.".toList, "negative".toList⟩] =
    [⟨0, "Great movie! Loved it".toList, "positive".toList⟩,
     ⟨1, "Bad.".toList, "negative".toList⟩] := by decide

/-- Counterexample to C2 as stated: the movie normalizer performs no
filtering, so a whitespace-only review with an off-vocabulary sentiment
yields a record with empty text and a label outside
{positive, negative, neutral}. -/
theorem normalizer_vocab_cex :
    (⟨0, [], "great".toList⟩ : Record) ∈
      format_movie_reviews_for_evaluate [⟨" ".toList, "great".toList⟩] ∧
    (⟨0, [], "great".toList⟩ : Record).text = [] ∧
    (⟨0, [], "great".toList⟩ : Record).sentiment ∉
      ["positive".toList, "negative".toList, "neutral".toList] := by decide

theorem sentimentOfOverall_mem {o : Option ℚ} {s : List Char}
    (h : sentimentOfOverall o = some s) :
    s = "negative".toList ∨ s = "neutral".toList ∨ s = "positive".toList := by
  cases o with
  | none => simp [sentimentOfOverall] at h
  | some q =>
    rw [sentimentOfOverall] at h
    split_ifs at h <;> simp_all

theorem finGo_nonempty :
    ∀ (rows : List FinRow) (k : Nat) (r : Record), r ∈ finGo rows k →
      r.text ≠ [] ∧ r.sentiment ≠ [] := by
  intro rows
  induction rows with
  | nil => intro k r hr; simp [finGo] at hr
  | cons row rest ih =>
    intro k r hr
    rw [finGo] at hr
    by_cases hc : pyLower (pyStrip row.sentiment) = [] ∨ pyStrip row.text = []
    · rw [if_pos hc] at hr
      exact ih _ _ hr
    · rw [if_neg hc] at hr
      push_neg at hc
      rcases List.mem_cons.mp hr with rfl | hr
      · exact ⟨hc.2, hc.1⟩
      · exact ih _ _ hr

theorem fashionGo_mem_spec :
    ∀ (lines : List FashionLine) (k : Nat) (r : Record), r ∈ fashionGo lines k →
      k ≤ r.id ∧ r.id - k < lines.length ∧
      ∃ rt, (lines.getD (r.id - k) ⟨none, none⟩).reviewText = some rt ∧ rt ≠ [] ∧
        r.text = pyStrip rt ∧
        sentimentOfOverall (lines.getD (r.id - k) ⟨none, none⟩).overall =
          some r.sentiment := by
  intro lines
  induction lines with
  | nil => intro k r hr; simp [fashionGo] at hr
  | cons l rest ih =>
    intro k r hr
    have tailStep : r ∈ fashionGo rest (k + 1) →
        k ≤ r.id ∧ r.id - k < (l :: rest).length ∧
        ∃ rt, ((l :: rest).getD (r.id - k) ⟨none, none⟩).reviewText = some rt ∧ rt ≠ [] ∧
          r.text = pyStrip rt ∧
          sentimentOfOverall ((l :: rest).getD (r.id - k) ⟨none, none⟩).overall =
            some r.sentiment := by
      intro hr2
      obtain ⟨h1, h2, rt, h3, h4, h5, h6⟩ := ih (k + 1) r hr2
      have hk : r.id - k = (r.id - (k + 1)) + 1 := by omega
      rw [hk]
      refine ⟨by omega, by simp; omega, rt, ?_, h4, h5, ?_⟩
      · rw [List.getD_cons_succ]
        exact h3
      · rw [List.getD_cons_succ]
        exact h6
    rw [fashionGo] at hr
    split at hr
    · exact tailStep hr
    · rename_i rt hrt
      split at hr
      · exact tailStep hr
      · rename_i hrte
        split at hr
        · exact tailStep hr
        · rename_i sent hsent
          rcases List.mem_cons.mp hr with rfl | hr
          · refine ⟨le_refl _, by simp, rt, ?_⟩
            simp only [Nat.sub_self, List.getD_cons_zero]
            exact ⟨hrt, hrte, by trivial, hsent⟩
          · exact tailStep hr

theorem fashionGo_ids_sorted :
    ∀ (lines : List FashionLine) (k : Nat),
      ((fashionGo lines k).map Record.id).Pairwise (· < ·) := by
  intro lines
  induction lines with
  | nil => intro k; simp [fashionGo]
  | cons l rest ih =>
    intro k
    rw [fashionGo]
    split
    · exact ih (k + 1)
    · split
      · exact ih (k + 1)
      · split
        · exact ih (k + 1)
        · rw [List.map_cons, List.pairwise_cons]
          refine ⟨?_, ih (k + 1)⟩
          intro b hb
          obtain ⟨r2, hr2, rfl⟩ := List.mem_map.mp hb
          have := (fashionGo_mem_spec rest (k + 1) r2 hr2).1
          show k < r2.id
          omega

/-- C2 (amended): the fashion normalizer only emits labels from
{negative, neutral, positive}, and the financial normalizer only emits
records with non-empty text and non-empty (lower-cased but otherwise
unconstrained) label; the movie normalizer enforces neither property
(it copies sentiment verbatim and drops no row), and the text of a
fashion record can be empty when reviewText is whitespace-only. -/
theorem normalizer_invariants (lines : List FashionLine) (rows : List FinRow) :
    (∀ r ∈ format_fashion_reviews_for_evaluate lines,
      r.sentiment = "negative".toList ∨ r.sentiment = "neutral".toList ∨
      r.sentiment = "positive".toList) ∧
    (∀ r ∈ format_financial_news_for_evaluate rows,
      r.text ≠ [] ∧ r.sentiment ≠ []) := by
  constructor
  · intro r hr
    obtain ⟨-, -, rt, -, -, -, hsent⟩ := fashionGo_mem_spec lines 0 r hr
    exact sentimentOfOverall_mem hsent
  · intro r hr
    exact finGo_nonempty rows 0 r hr

/-- Witness for the amended C2: one fashion line rated 5 and one
financial row with padded fields. -/
theorem normalizer_invariants_witness :
    ((⟨0, "ok".toList, "positive".toList⟩ : Record).sentiment = "negative".toList ∨
     (⟨0, "ok".toList, "positive".toList⟩ : Record).sentiment = "neutral".toList ∨
     (⟨0, "ok".toList, "positive".toList⟩ : Record).sentiment = "positive".toList) ∧
    ((⟨0, "x".toList, "pos".toList⟩ : Record).text ≠ [] ∧
     (⟨0, "x".toList, "pos".toList⟩ : Record).sentiment ≠ []) :=
  ⟨(normalizer_invariants [⟨some "ok".toList, some 5⟩] []).1
     ⟨0, "ok".toList, "positive".toList⟩ (by decide),
   (normalizer_invariants [] [⟨" POS ".toList, " x ".toList⟩]).2
     ⟨0, "x".toList, "pos".toList⟩ (by decide)⟩

/-- C9: a fashion line whose rating maps to no sentiment (3.5, any value
outside {1,2,3,4,5}, or missing) produces no record; every emitted
record has as id the 0-based index of its input line, over all lines,
so ids form a strictly increasing subset of the line indices. -/
theorem fashion_ids_spec (lines : List FashionLine) :
    (∀ i (h : i < lines.length),
      sentimentOfOverall lines[i].overall = none →
      ∀ r ∈ format_fashion_reviews_for_evaluate lines, r.id ≠ i) ∧
    (∀ r ∈ format_fashion_reviews_for_evaluate lines,
      r.id < lines.length ∧
      ∃ rt, (lines.getD r.id ⟨none, none⟩).reviewText = some rt ∧ rt ≠ [] ∧
        r.text = pyStrip rt ∧
        sentimentOfOverall (lines.getD r.id ⟨none, none⟩).overall = some r.sentiment) ∧
    ((format_fashion_reviews_for_evaluate lines).map Record.id).Pairwise (· < ·) := by
  refine ⟨?_, ?_, ?_⟩
  · intro i h hnone r hr heq
    obtain ⟨-, hlt, rt, hrt, -, -, hsent⟩ := fashionGo_mem_spec lines 0 r hr
    rw [Nat.sub_zero] at hlt hsent
    rw [heq] at hsent
    rw [getD_eq_getElem_of_lt _ h] at hsent
    rw [hnone] at hsent
    exact Option.noConfusion hsent
  · intro r hr
    obtain ⟨-, hlt, rt, hrt, hne, htext, hsent⟩ := fashionGo_mem_spec lines 0 r hr
    rw [Nat.sub_zero] at hlt hrt hsent
    exact ⟨hlt, rt, hrt, hne, htext, hsent⟩
  · exact fashionGo_ids_sorted lines 0

/-- Witness for C9: the 3.5-rated first line yields no record, and the
record of the second line keeps id 1. -/
theorem fashion_ids_spec_witness :
    (⟨1, "ok".toList, "positive".toList⟩ : Record).id ≠ 0 :=
  (fashion_ids_spec [⟨some "x".toList, some threeAndAHalf⟩, ⟨some "ok".toList, some 5⟩]).1
    0 (by decide) (by decide)
    ⟨1, "ok".toList, "positive".toList⟩ (by decide)
